import Mathlib

/-!
Verification of the sine-tone synthesis and WAV encoding pipeline of
`generate_tone.py` (function `generate_sine_wave`).

The synthesis loop is embedded over the reals: Python's `math.sin` becomes
`Real.sin`, Python's `int(...)` conversion (truncation toward zero) becomes
`pyInt`, and the per-sample 16-bit packing `struct.pack('<h', s)` and the
WAV container header written by the `wave` module are embedded as byte-list
producing functions on `ℤ` samples.
-/

/-- Python's `int(x)` applied to a float: truncation toward zero. -/
noncomputable def pyInt (x : ℝ) : ℤ := if 0 ≤ x then ⌊x⌋ else ⌈x⌉

/-- `num_samples = int(sample_rate * duration)`; Python's `range(n)` is empty
for non-positive `n`, hence the `Int.toNat`. -/
noncomputable def numSamples (sample_rate : ℕ) (duration : ℝ) : ℕ :=
  (pyInt (sample_rate * duration)).toNat

/-- The body of the synthesis loop for index `i`:
`t = i / sample_rate`; `sample = amplitude * math.sin(2 * math.pi * frequency * t)`;
`sample_int = int(sample * 32767)`. -/
noncomputable def sampleAt (frequency : ℝ) (sample_rate : ℕ) (amplitude : ℝ)
    (i : ℕ) : ℤ :=
  pyInt (amplitude * Real.sin (2 * Real.pi * frequency * (i / sample_rate)) * 32767)

/-- The sample buffer built by `generate_sine_wave(frequency, duration,
sample_rate, amplitude)` before it is written to the WAV file. -/
noncomputable def generate_sine_wave (frequency duration : ℝ) (sample_rate : ℕ)
    (amplitude : ℝ) : List ℤ :=
  (List.range (numSamples sample_rate duration)).map
    (sampleAt frequency sample_rate amplitude)

/-- Little-endian bytes of a 16-bit unsigned value. -/
def u16le (n : ℕ) : List ℕ := [n % 256, n / 256 % 256]

/-- Little-endian bytes of a 32-bit unsigned value. -/
def u32le (n : ℕ) : List ℕ :=
  [n % 256, n / 256 % 256, n / 65536 % 256, n / 16777216 % 256]

/-- `struct.pack('<h', z)`: two's-complement little-endian 16-bit packing;
raises (here: `none`) when `z` is outside the signed 16-bit range. -/
def pack_i16le (z : ℤ) : Option (List ℕ) :=
  if -32768 ≤ z ∧ z ≤ 32767 then some (u16le (z % 65536).toNat) else none

/-- The write loop `for sample in samples: wav_file.writeframes(struct.pack('<h', sample))`:
the concatenated data bytes, or `none` as soon as one sample fails to pack. -/
def packSamples : List ℤ → Option (List ℕ)
  | [] => some []
  | z :: rest =>
    match pack_i16le z, packSamples rest with
    | some b, some bs => some (b ++ bs)
    | _, _ => none

/-- The 44-byte RIFF/WAVE header the `wave` module emits for a mono 16-bit PCM
stream: "RIFF", chunk size, "WAVE", "fmt ", fmt-chunk size 16, audio format 1
(PCM), 1 channel, the sample rate, byte rate, block align 2, 16 bits per
sample, "data", data length. -/
def wavHeader (sample_rate dataLen : ℕ) : List ℕ :=
  [82, 73, 70, 70] ++ u32le (36 + dataLen) ++ [87, 65, 86, 69] ++
  [102, 109, 116, 32] ++ u32le 16 ++ u16le 1 ++ u16le 1 ++
  u32le sample_rate ++ u32le (2 * sample_rate) ++ u16le 2 ++ u16le 16 ++
  [100, 97, 116, 97] ++ u32le dataLen

/-- The byte stream `generate_sine_wave` writes through the `wave` module:
each sample packed with `struct.pack('<h', ...)` after the header. `none`
models the `struct.error` on an out-of-range sample, or a chunk-size or
frame-rate field exceeding the 32-bit header fields. -/
def encode_wav (samples : List ℤ) (sample_rate : ℕ) : Option (List ℕ) :=
  (packSamples samples).bind (fun data =>
    if 36 + data.length < 4294967296 ∧ sample_rate < 4294967296 then
      some (wavHeader sample_rate data.length ++ data)
    else none)

/-- Read a little-endian 16-bit unsigned value at the head of a byte list. -/
def readU16le (l : List ℕ) : ℕ := l.getD 0 0 + 256 * l.getD 1 0

/-- Read a little-endian 32-bit unsigned value at the head of a byte list. -/
def readU32le (l : List ℕ) : ℕ :=
  l.getD 0 0 + 256 * l.getD 1 0 + 65536 * l.getD 2 0 + 16777216 * l.getD 3 0

/-- Interpret two bytes as a little-endian two's-complement 16-bit integer. -/
def unpack_i16le (b0 b1 : ℕ) : ℤ :=
  let n := b0 + 256 * b1
  if n < 32768 then (n : ℤ) else (n : ℤ) - 65536

/-- Decode a run of little-endian 16-bit samples; `none` on an odd byte count. -/
def decodeSamples : List ℕ → Option (List ℤ)
  | [] => some []
  | b0 :: b1 :: rest => (decodeSamples rest).map (fun l => unpack_i16le b0 b1 :: l)
  | [_] => none

/-- Modelled from the spec: a standard WAV reader for the mono 16-bit PCM
container (the repository contains no decoder; §8 of the spec appeals to
"any standard WAV reader"). It checks the RIFF/WAVE magic, the PCM format
fields (format 1, 1 channel, block align 2, 16 bits per sample), reads the
declared data length and decodes that many bytes as little-endian signed
16-bit samples. -/
def decode (bytes : List ℕ) : Option (List ℤ) :=
  if bytes.take 4 = [82, 73, 70, 70] ∧
     (bytes.drop 8).take 8 = [87, 65, 86, 69, 102, 109, 116, 32] ∧
     readU32le (bytes.drop 16) = 16 ∧
     readU16le (bytes.drop 20) = 1 ∧
     readU16le (bytes.drop 22) = 1 ∧
     readU16le (bytes.drop 32) = 2 ∧
     readU16le (bytes.drop 34) = 16 ∧
     (bytes.drop 36).take 4 = [100, 97, 116, 97] ∧
     (bytes.drop 44).length = readU32le (bytes.drop 40)
  then decodeSamples (bytes.drop 44)
  else none

/-- The quantization step as the spec words it (§4.1): round to nearest,
then clamp to the signed 16-bit range. Stated for comparison with the
truncating quantization the code performs. -/
noncomputable def specQuantize (x : ℝ) : ℤ :=
  max (-32768) (min 32767 (round (x * 32767)))

/-- The sample value as the spec words it: `specQuantize` applied to
`amplitude × sin(2π × frequency × i / sample_rate)`. -/
noncomputable def specSampleAt (frequency : ℝ) (sample_rate : ℕ)
    (amplitude : ℝ) (i : ℕ) : ℤ :=
  specQuantize (amplitude * Real.sin (2 * Real.pi * frequency * (i / sample_rate)))

/-- A buffer is non-oscillating when it is constant. -/
def nonOscillating (l : List ℤ) : Prop := ∀ x ∈ l, ∀ y ∈ l, x = y

/-! ### Basic lemmas about the embedding -/

theorem pyInt_of_nonneg {x : ℝ} (h : 0 ≤ x) : pyInt x = ⌊x⌋ := if_pos h

theorem pyInt_intCast (z : ℤ) : pyInt (z : ℝ) = z := by
  unfold pyInt
  split <;> simp

theorem pyInt_bound {x : ℝ} {c : ℤ} (hc : 0 ≤ c) (h : |x| ≤ (c : ℝ)) :
    -c ≤ pyInt x ∧ pyInt x ≤ c := by
  rw [abs_le] at h
  unfold pyInt
  split
  case isTrue hx =>
    refine ⟨le_trans (by omega) (Int.floor_nonneg.mpr hx), ?_⟩
    calc ⌊x⌋ ≤ ⌊(c : ℝ)⌋ := Int.floor_le_floor h.2
      _ = c := Int.floor_intCast c
  case isFalse hx =>
    push_neg at hx
    refine ⟨?_, le_trans (Int.ceil_le.mpr (by exact_mod_cast hx.le)) hc⟩
    calc -c = ⌈((-c : ℤ) : ℝ)⌉ := (Int.ceil_intCast _).symm
      _ ≤ ⌈x⌉ := Int.ceil_le_ceil (by push_cast; linarith [h.1])

theorem length_generate_sine_wave (frequency duration : ℝ) (sample_rate : ℕ)
    (amplitude : ℝ) :
    (generate_sine_wave frequency duration sample_rate amplitude).length =
      numSamples sample_rate duration := by
  simp [generate_sine_wave]

theorem getD_generate_sine_wave (frequency duration : ℝ) (sample_rate : ℕ)
    (amplitude : ℝ) {i : ℕ} (hi : i < numSamples sample_rate duration) :
    (generate_sine_wave frequency duration sample_rate amplitude).getD i 0 =
      sampleAt frequency sample_rate amplitude i := by
  rw [generate_sine_wave, List.getD_eq_getElem _ _ (by simpa using hi)]
  simp

theorem sampleAt_bound (frequency : ℝ) (sample_rate : ℕ) {amplitude : ℝ}
    (h0 : 0 < amplitude) (h1 : amplitude ≤ 1) (i : ℕ) :
    -32767 ≤ sampleAt frequency sample_rate amplitude i ∧
      sampleAt frequency sample_rate amplitude i ≤ 32767 := by
  refine pyInt_bound (by norm_num) ?_
  rw [abs_mul, abs_mul]
  have hs : |Real.sin (2 * Real.pi * frequency * (i / sample_rate))| ≤ 1 :=
    abs_le.mpr ⟨Real.neg_one_le_sin _, Real.sin_le_one _⟩
  have hb : |amplitude| * |Real.sin (2 * Real.pi * frequency * (i / sample_rate))| ≤ 1 := by
    rw [abs_of_pos h0]
    exact mul_le_one₀ h1 (abs_nonneg _) hs
  calc |amplitude| * |Real.sin (2 * Real.pi * frequency * (i / sample_rate))| * |(32767 : ℝ)|
      ≤ 1 * |(32767 : ℝ)| := mul_le_mul_of_nonneg_right hb (abs_nonneg _)
    _ = ((32767 : ℤ) : ℝ) := by norm_num

/-! ### C1: buffer length -/

/-- C1 counterexample: for the valid ToneSpec (frequency 1, duration 3/4,
sample_rate 2, amplitude 1) the synthesized buffer has length 1 =
`int(2 * 0.75)`, while `round(sample_rate × duration) = round(1.5) = 2`,
so the claimed length formula fails. -/
theorem C1_counterexample :
    (generate_sine_wave 1 (3/4) 2 1).length = 1 ∧
      (round (((2 : ℕ) : ℝ) * (3/4))).toNat = 2 ∧
      (generate_sine_wave 1 (3/4) 2 1).length ≠
        (round (((2 : ℕ) : ℝ) * (3/4))).toNat := by
  have hr : round (((2 : ℕ) : ℝ) * (3/4)) = 2 := by
    rw [round_eq]
    norm_num
  have hl : (generate_sine_wave 1 (3/4) 2 1).length = 1 := by
    rw [length_generate_sine_wave, numSamples,
      pyInt_of_nonneg (by norm_num)]
    norm_num
  exact ⟨hl, by rw [hr]; rfl, by rw [hl, hr]; decide⟩

/-- C1 amended: for every ToneSpec with frequency > 0, duration > 0, positive
integer sample_rate, and 0 < amplitude ≤ 1, the buffer returned by
`generate_sine_wave` has length `int(sample_rate × duration)` — the product
truncated toward zero (equivalently ⌊sample_rate × duration⌋, the product
being positive) — not rounded to nearest. -/
theorem C1_length_is_floor (frequency duration : ℝ) (sample_rate : ℕ)
    (amplitude : ℝ) (hf : 0 < frequency) (hd : 0 < duration)
    (hsr : 0 < sample_rate) (ha0 : 0 < amplitude) (ha1 : amplitude ≤ 1) :
    (generate_sine_wave frequency duration sample_rate amplitude).length =
      (⌊(sample_rate : ℝ) * duration⌋).toNat := by
  rw [length_generate_sine_wave, numSamples,
    pyInt_of_nonneg (mul_nonneg (Nat.cast_nonneg _) hd.le)]

/-- C1 witness: the amended length theorem instantiated at the valid ToneSpec
(frequency 1, duration 3/4, sample_rate 2, amplitude 1). -/
theorem C1_length_is_floor_witness :
    (generate_sine_wave 1 (3/4) 2 1).length = (⌊((2 : ℕ) : ℝ) * (3/4)⌋).toNat :=
  C1_length_is_floor 1 (3/4) 2 1 (by norm_num) (by norm_num) (by norm_num)
    (by norm_num) (by norm_num)

/-! ### C2: per-sample formula -/

/-- C2 counterexample: for the valid ToneSpec (frequency 1, duration 1,
sample_rate 8, amplitude 1), sample index 1 falls at the angle π/4, whose
sine is √2/2; the code truncates `1 × (√2/2) × 32767 ≈ 23169.77` to 23169,
while the claimed round-to-nearest formula gives 23170. -/
theorem C2_counterexample :
    (generate_sine_wave 1 1 8 1).getD 1 0 = 23169 ∧
      specSampleAt 1 8 1 1 = 23170 ∧
      (generate_sine_wave 1 1 8 1).getD 1 0 ≠ specSampleAt 1 8 1 1 := by
  have hsqrt := Real.sq_sqrt (show (0:ℝ) ≤ 2 by norm_num)
  have hnn := Real.sqrt_nonneg 2
  have hlo : (46339 : ℝ) ≤ 32767 * Real.sqrt 2 := by nlinarith
  have hhi : (32767 : ℝ) * Real.sqrt 2 < 46340 := by nlinarith
  have hangle : Real.sin (2 * Real.pi * 1 * (((1:ℕ):ℝ) / ((8:ℕ):ℝ))) =
      Real.sqrt 2 / 2 := by
    have h : 2 * Real.pi * 1 * (((1:ℕ):ℝ) / ((8:ℕ):ℝ)) = Real.pi / 4 := by
      push_cast; ring
    rw [h, Real.sin_pi_div_four]
  have hn : numSamples 8 1 = 8 := by
    rw [numSamples, pyInt_of_nonneg (by norm_num)]
    norm_num
    decide
  have hget : (generate_sine_wave 1 1 8 1).getD 1 0 = sampleAt 1 8 1 1 :=
    getD_generate_sine_wave 1 1 8 1 (by rw [hn]; norm_num)
  have hcode : sampleAt 1 8 1 1 = 23169 := by
    rw [sampleAt, hangle, pyInt_of_nonneg (by positivity)]
    rw [Int.floor_eq_iff]
    constructor
    · push_cast
      nlinarith
    · push_cast
      nlinarith
  have hspec : specSampleAt 1 8 1 1 = 23170 := by
    rw [specSampleAt, hangle, specQuantize, round_eq]
    have hfl : ⌊1 * (Real.sqrt 2 / 2) * 32767 + 1 / 2⌋ = (23170 : ℤ) := by
      rw [Int.floor_eq_iff]
      constructor
      · push_cast
        nlinarith
      · push_cast
        nlinarith
    rw [hfl]
    norm_num
  refine ⟨by rw [hget, hcode], hspec, by rw [hget, hcode, hspec]; norm_num⟩

/-- C2 amended: for every valid ToneSpec and every index i < N, the i-th
sample equals `int(amplitude × sin(2π × frequency × i / sample_rate) × 32767)`
— the real value truncated toward zero — with no rounding to nearest and no
clamping applied (clamping is unnecessary since amplitude ≤ 1 keeps the
value inside the 16-bit range). -/
theorem C2_sample_formula (frequency duration : ℝ) (sample_rate : ℕ)
    (amplitude : ℝ) (hf : 0 < frequency) (hd : 0 < duration)
    (hsr : 0 < sample_rate) (ha0 : 0 < amplitude) (ha1 : amplitude ≤ 1)
    {i : ℕ}
    (hi : i < (generate_sine_wave frequency duration sample_rate amplitude).length) :
    (generate_sine_wave frequency duration sample_rate amplitude).getD i 0 =
      pyInt (amplitude *
        Real.sin (2 * Real.pi * frequency * ((i : ℝ) / (sample_rate : ℝ))) * 32767) := by
  rw [length_generate_sine_wave] at hi
  exact getD_generate_sine_wave frequency duration sample_rate amplitude hi

/-- C2 witness: the amended per-sample formula instantiated at the valid
ToneSpec (frequency 1, duration 1, sample_rate 8, amplitude 1), index 1. -/
theorem C2_sample_formula_witness :
    (generate_sine_wave 1 1 8 1).getD 1 0 =
      pyInt (1 * Real.sin (2 * Real.pi * 1 * (((1:ℕ) : ℝ) / ((8:ℕ) : ℝ))) * 32767) :=
  C2_sample_formula 1 1 8 1 (by norm_num) (by norm_num) (by norm_num)
    (by norm_num) (by norm_num)
    (by rw [length_generate_sine_wave, numSamples, pyInt_of_nonneg (by norm_num)]
        norm_num)

/-! ### C3: amplitude clamping -/

theorem pyInt_nonpos {x : ℝ} (h : x ≤ 0) : pyInt x ≤ 0 := by
  unfold pyInt
  split
  · have hx0 : x = 0 := le_antisymm h (by assumption)
    simp [hx0]
  · exact Int.ceil_le.mpr (by exact_mod_cast h)

/-- C3 counterexample: the code performs no clamping of `amplitude`. Calling
`generate_sine_wave(1, 1, 4, 2)` with amplitude 2 > 1 reaches sin(π/2) = 1 at
sample index 1 and quantizes `2 × 1 × 32767 = 65534`, far outside the signed
16-bit range, so `struct.pack('<h', ...)` fails on it. -/
theorem C3_counterexample :
    (generate_sine_wave 1 1 4 2).getD 1 0 = 65534 ∧
      ¬((generate_sine_wave 1 1 4 2).getD 1 0 ≤ 32767) ∧
      pack_i16le ((generate_sine_wave 1 1 4 2).getD 1 0) = none := by
  have hn : numSamples 4 1 = 4 := by
    rw [numSamples, pyInt_of_nonneg (by norm_num)]
    norm_num
    decide
  have hget : (generate_sine_wave 1 1 4 2).getD 1 0 = sampleAt 1 4 2 1 :=
    getD_generate_sine_wave 1 1 4 2 (by rw [hn]; norm_num)
  have hangle : Real.sin (2 * Real.pi * 1 * (((1:ℕ):ℝ) / ((4:ℕ):ℝ))) = 1 := by
    have h : 2 * Real.pi * 1 * (((1:ℕ):ℝ) / ((4:ℕ):ℝ)) = Real.pi / 2 := by
      push_cast; ring
    rw [h, Real.sin_pi_div_two]
  have hval : sampleAt 1 4 2 1 = 65534 := by
    rw [sampleAt, hangle]
    norm_num
    rw [pyInt_of_nonneg (by norm_num)]
    norm_num
  refine ⟨by rw [hget, hval], by rw [hget, hval]; norm_num, ?_⟩
  rw [hget, hval, pack_i16le]
  norm_num

/-- C3 amended: the code does not clamp `amplitude`; the invariant holds only
for calls that already satisfy 0 < amplitude ≤ 1, where amplitude × 32767
never exceeds 32767 and every quantized sample stays inside the signed
16-bit integer range. A call with amplitude > 1 can produce values outside
that range (see the counterexample). -/
theorem C3_amplitude_invariant (frequency : ℝ) (sample_rate : ℕ)
    {amplitude : ℝ} (ha0 : 0 < amplitude) (ha1 : amplitude ≤ 1) :
    amplitude * 32767 ≤ 32767 ∧
      ∀ i : ℕ, -32768 ≤ sampleAt frequency sample_rate amplitude i ∧
        sampleAt frequency sample_rate amplitude i ≤ 32767 := by
  refine ⟨by nlinarith, fun i => ?_⟩
  have h := sampleAt_bound frequency sample_rate ha0 ha1 i
  exact ⟨by omega, h.2⟩

/-- C3 witness: the amended invariant instantiated at frequency 1,
sample_rate 4, amplitude 1, sample index 0. -/
theorem C3_amplitude_invariant_witness :
    (1 : ℝ) * 32767 ≤ 32767 ∧
      (-32768 ≤ sampleAt 1 4 1 0 ∧ sampleAt 1 4 1 0 ≤ 32767) :=
  ⟨(@C3_amplitude_invariant 1 4 1 (by norm_num) (by norm_num)).1,
   (@C3_amplitude_invariant 1 4 1 (by norm_num) (by norm_num)).2 0⟩

/-! ### C4: samples in the signed 16-bit range -/

/-- C4 confirmed: for every valid ToneSpec (frequency > 0, duration > 0,
positive sample_rate, 0 < amplitude ≤ 1), every sample of the synthesized
buffer lies in [-32768, 32767]. -/
theorem C4_samples_in_range (frequency duration : ℝ) (sample_rate : ℕ)
    {amplitude : ℝ} (hf : 0 < frequency) (hd : 0 < duration)
    (hsr : 0 < sample_rate) (ha0 : 0 < amplitude) (ha1 : amplitude ≤ 1) :
    ∀ s ∈ generate_sine_wave frequency duration sample_rate amplitude,
      -32768 ≤ s ∧ s ≤ 32767 := by
  intro s hs
  rw [generate_sine_wave, List.mem_map] at hs
  obtain ⟨i, -, rfl⟩ := hs
  have h := sampleAt_bound frequency sample_rate ha0 ha1 i
  exact ⟨by omega, h.2⟩

/-- C4 witness: the range theorem instantiated at the valid ToneSpec
(frequency 1, duration 1, sample_rate 2, amplitude 1) and the buffer
element at index 0. -/
theorem C4_samples_in_range_witness :
    -32768 ≤ sampleAt 1 2 1 0 ∧ sampleAt 1 2 1 0 ≤ 32767 := by
  refine @C4_samples_in_range 1 1 2 1 (by norm_num) (by norm_num) (by norm_num)
    (by norm_num) (by norm_num) (sampleAt 1 2 1 0) ?_
  rw [generate_sine_wave, List.mem_map]
  refine ⟨0, ?_, rfl⟩
  rw [List.mem_range, numSamples, pyInt_of_nonneg (by norm_num)]
  norm_num

/-! ### C6: determinism -/

/-- C6 confirmed: the pipeline is a pure function of its four inputs — two
invocations of synthesis on identical parameters yield identical buffers,
and encoding identical buffers yields byte-identical containers; there is no
randomness or hidden state in the embedded computation. -/
theorem C6_deterministic (frequency duration amplitude : ℝ) (sample_rate : ℕ)
    (frequency' duration' amplitude' : ℝ) (sample_rate' : ℕ)
    (h1 : frequency = frequency') (h2 : duration = duration')
    (h3 : sample_rate = sample_rate') (h4 : amplitude = amplitude') :
    generate_sine_wave frequency duration sample_rate amplitude =
      generate_sine_wave frequency' duration' sample_rate' amplitude' ∧
      encode_wav (generate_sine_wave frequency duration sample_rate amplitude)
          sample_rate =
        encode_wav (generate_sine_wave frequency' duration' sample_rate' amplitude')
          sample_rate' := by
  subst h1; subst h2; subst h3; subst h4
  exact ⟨rfl, rfl⟩

/-- C6 witness: determinism instantiated at the ToneSpec
(frequency 440, duration 2, sample_rate 44100, amplitude 3/10). -/
theorem C6_deterministic_witness :
    generate_sine_wave 440 2 44100 (3/10) = generate_sine_wave 440 2 44100 (3/10) ∧
      encode_wav (generate_sine_wave 440 2 44100 (3/10)) 44100 =
        encode_wav (generate_sine_wave 440 2 44100 (3/10)) 44100 :=
  C6_deterministic 440 2 (3/10) 44100 440 2 (3/10) 44100 rfl rfl rfl rfl

/-! ### C5: round-trip fidelity of the WAV encoding -/

theorem unpack_u16le {z : ℤ} (h1 : -32768 ≤ z) (h2 : z ≤ 32767) :
    unpack_i16le ((z % 65536).toNat % 256) ((z % 65536).toNat / 256 % 256) = z := by
  have e1 : 0 ≤ z % 65536 := by omega
  have e2 : z % 65536 < 65536 := by omega
  simp only [unpack_i16le]
  split <;> omega

theorem packSamples_cons {a : ℤ} {t : List ℤ} {data : List ℕ}
    (hp : packSamples (a :: t) = some data) :
    (-32768 ≤ a ∧ a ≤ 32767) ∧
      ∃ rest, packSamples t = some rest ∧
        data = u16le (a % 65536).toNat ++ rest := by
  rw [packSamples] at hp
  rcases hb : pack_i16le a with _ | b
  · rw [hb] at hp; exact absurd hp (by simp)
  rcases hr : packSamples t with _ | rest
  · rw [hb, hr] at hp; exact absurd hp (by simp)
  rw [hb, hr] at hp
  simp only [Option.some.injEq] at hp
  have hrange : -32768 ≤ a ∧ a ≤ 32767 := by
    by_contra hc
    rw [pack_i16le, if_neg hc] at hb
    exact Option.noConfusion hb
  rw [pack_i16le, if_pos hrange] at hb
  have hbval : u16le (a % 65536).toNat = b := Option.some.inj hb
  exact ⟨hrange, rest, rfl, by rw [← hp, hbval]⟩

theorem decodeSamples_packSamples {l : List ℤ} :
    ∀ {data : List ℕ}, packSamples l = some data →
      decodeSamples data = some l := by
  induction l with
  | nil =>
    intro data hp
    rw [packSamples] at hp
    simp only [Option.some.injEq] at hp
    subst hp
    rfl
  | cons a t ih =>
    intro data hp
    obtain ⟨hrange, rest, hrest, hdata⟩ := packSamples_cons hp
    subst hdata
    rw [u16le]
    show decodeSamples (_ :: _ :: rest) = _
    rw [decodeSamples, ih hrest]
    simp [unpack_u16le hrange.1 hrange.2]

theorem packSamples_isSome {l : List ℤ} (h : ∀ s ∈ l, -32768 ≤ s ∧ s ≤ 32767) :
    ∃ data, packSamples l = some data := by
  induction l with
  | nil => exact ⟨[], rfl⟩
  | cons a t ih =>
    obtain ⟨rest, hrest⟩ := ih (fun s hs => h s (List.mem_cons_of_mem a hs))
    refine ⟨u16le ((a % 65536).toNat) ++ rest, ?_⟩
    rw [packSamples, pack_i16le, if_pos (h a (List.mem_cons_self a t)), hrest]

theorem decode_header {sr dl : ℕ} (hsr : sr < 4294967296) (h32 : 36 + dl < 4294967296)
    (data : List ℕ) (hdl : data.length = dl) :
    decode (wavHeader sr dl ++ data) = decodeSamples data := by
  have hdrop : (wavHeader sr dl ++ data).drop 44 = data := by
    simp [wavHeader, u16le, u32le]
  rw [decode, if_pos, hdrop]
  refine ⟨?_, ?_, ?_, ?_, ?_, ?_, ?_, ?_, ?_⟩ <;>
  · simp [wavHeader, u16le, u32le, readU16le, readU32le, hdl]
    try omega

/-- C5 confirmed: for every valid ToneSpec, whenever the encoder succeeds in
producing a byte stream from the synthesized buffer, decoding that stream
with a standard mono 16-bit PCM WAV reader recovers the synthesized buffer
sample for sample. -/
theorem C5_round_trip (frequency duration : ℝ) (sample_rate : ℕ) (amplitude : ℝ)
    (hf : 0 < frequency) (hd : 0 < duration) (hsr : 0 < sample_rate)
    (ha0 : 0 < amplitude) (ha1 : amplitude ≤ 1) {bs : List ℕ}
    (henc : encode_wav (generate_sine_wave frequency duration sample_rate amplitude)
        sample_rate = some bs) :
    decode bs = some (generate_sine_wave frequency duration sample_rate amplitude) := by
  rw [encode_wav] at henc
  rcases hps : packSamples (generate_sine_wave frequency duration sample_rate amplitude)
    with _ | data
  · rw [hps] at henc; exact absurd henc (by simp)
  rw [hps, Option.some_bind] at henc
  split at henc
  case isTrue hcond =>
    have hbs := Option.some.inj henc
    rw [← hbs, decode_header hcond.2 hcond.1 data rfl]
    exact decodeSamples_packSamples hps
  case isFalse => exact Option.noConfusion henc

theorem generate_sine_wave_1111 : generate_sine_wave 1 1 1 1 = [0] := by
  have hn : numSamples 1 1 = 1 := by
    rw [numSamples, pyInt_of_nonneg (by norm_num)]
    norm_num
  have hs : sampleAt 1 1 1 0 = 0 := by
    rw [sampleAt]
    norm_num
    rw [pyInt_of_nonneg le_rfl]
    exact Int.floor_zero
  have hr : List.range 1 = [0] := rfl
  rw [generate_sine_wave, hn, hr, List.map_singleton, hs]

/-- C5 witness: the round trip at the valid ToneSpec (frequency 1, duration 1,
sample_rate 1, amplitude 1), whose buffer is the single sample 0 and whose
container is the 44-byte header followed by the two data bytes 0, 0. -/
theorem C5_round_trip_witness :
    decode (wavHeader 1 2 ++ [0, 0]) = some (generate_sine_wave 1 1 1 1) := by
  apply C5_round_trip 1 1 1 1 (by norm_num) (by norm_num) (by norm_num) (by norm_num)
    (by norm_num)
  rw [generate_sine_wave_1111]
  rfl

/-! ### C7: degenerate inputs -/

/-- C7 counterexample: a negative frequency does not yield a non-oscillating
buffer. `generate_sine_wave(-1, 1, 4, 1)` has sample 0 at index 0 but
-32767 at index 1 (the sine of -π/2), so the buffer is not constant: it
oscillates as an inverted sine wave. -/
theorem C7_counterexample :
    (generate_sine_wave (-1) 1 4 1).getD 0 0 = 0 ∧
      (generate_sine_wave (-1) 1 4 1).getD 1 0 = -32767 ∧
      ¬ nonOscillating (generate_sine_wave (-1) 1 4 1) := by
  have hn : numSamples 4 1 = 4 := by
    rw [numSamples, pyInt_of_nonneg (by norm_num)]
    norm_num
    decide
  have h0 : (generate_sine_wave (-1) 1 4 1).getD 0 0 = 0 := by
    rw [getD_generate_sine_wave (-1) 1 4 1 (by rw [hn]; norm_num), sampleAt]
    norm_num
    rw [pyInt_of_nonneg le_rfl]
    exact Int.floor_zero
  have h1 : (generate_sine_wave (-1) 1 4 1).getD 1 0 = -32767 := by
    rw [getD_generate_sine_wave (-1) 1 4 1 (by rw [hn]; norm_num), sampleAt]
    have hangle : Real.sin (2 * Real.pi * (-1) * (((1:ℕ):ℝ) / ((4:ℕ):ℝ))) = -1 := by
      have h : 2 * Real.pi * (-1) * (((1:ℕ):ℝ) / ((4:ℕ):ℝ)) = -(Real.pi / 2) := by
        push_cast; ring
      rw [h, Real.sin_neg, Real.sin_pi_div_two]
    rw [hangle]
    have hv : (1:ℝ) * (-1) * 32767 = ((-32767 : ℤ) : ℝ) := by norm_num
    rw [hv, pyInt_intCast]
  refine ⟨h0, h1, fun hno => ?_⟩
  have hlen : (generate_sine_wave (-1) 1 4 1).length = 4 := by
    rw [length_generate_sine_wave, hn]
  have hm0 : (generate_sine_wave (-1) 1 4 1).getD 0 0 ∈ generate_sine_wave (-1) 1 4 1 := by
    rw [List.getD_eq_getElem _ _ (by omega)]
    exact List.getElem_mem _
  have hm1 : (generate_sine_wave (-1) 1 4 1).getD 1 0 ∈ generate_sine_wave (-1) 1 4 1 := by
    rw [List.getD_eq_getElem _ _ (by omega)]
    exact List.getElem_mem _
  have := hno _ hm0 _ hm1
  rw [h0, h1] at this
  norm_num at this

/-- C7 amended: the pipeline raises no error on degenerate input — any
non-positive duration yields the empty buffer; encoding the empty buffer
yields a valid container (44-byte header, mono, 16-bit, the given sample
rate, zero data bytes) that decodes back to the empty buffer; and zero
frequency yields an all-zero buffer. A *negative* frequency, however, does
oscillate (see the counterexample), as an inverted sine of the positive
frequency. -/
theorem C7_degenerate_inputs (frequency duration : ℝ) (sample_rate : ℕ)
    (amplitude : ℝ) (hsr : 0 < sample_rate) (hsr32 : sample_rate < 4294967296) :
    (duration ≤ 0 → generate_sine_wave frequency duration sample_rate amplitude = []) ∧
      encode_wav ([] : List ℤ) sample_rate = some (wavHeader sample_rate 0) ∧
      (wavHeader sample_rate 0).length = 44 ∧
      readU16le ((wavHeader sample_rate 0).drop 22) = 1 ∧
      readU16le ((wavHeader sample_rate 0).drop 34) = 16 ∧
      readU32le ((wavHeader sample_rate 0).drop 24) = sample_rate ∧
      readU32le ((wavHeader sample_rate 0).drop 40) = 0 ∧
      decode (wavHeader sample_rate 0) = some [] ∧
      (frequency = 0 →
        ∀ s ∈ generate_sine_wave frequency duration sample_rate amplitude, s = 0) := by
  refine ⟨fun hd => ?_, ?_, ?_, ?_, ?_, ?_, ?_, ?_, fun hf s hs => ?_⟩
  · have hnp : (sample_rate : ℝ) * duration ≤ 0 :=
      mul_nonpos_iff.mpr (Or.inl ⟨Nat.cast_nonneg _, hd⟩)
    have hn0 : numSamples sample_rate duration = 0 := by
      have := pyInt_nonpos hnp
      rw [numSamples]
      omega
    rw [generate_sine_wave, hn0]
    rfl
  · have hps : packSamples ([] : List ℤ) = some [] := rfl
    rw [encode_wav, hps, Option.some_bind, if_pos ⟨by norm_num, by omega⟩]
    simp
  · simp [wavHeader, u16le, u32le]
  · simp [wavHeader, u16le, u32le, readU16le]
  · simp [wavHeader, u16le, u32le, readU16le]
  · simp [wavHeader, u16le, u32le, readU32le]
    omega
  · simp [wavHeader, u16le, u32le, readU32le]
  · have h := @decode_header sample_rate 0 hsr32 (by norm_num) [] rfl
    rw [List.append_nil] at h
    rw [h]
    rfl
  · subst hf
    rw [generate_sine_wave, List.mem_map] at hs
    obtain ⟨i, -, rfl⟩ := hs
    rw [sampleAt]
    norm_num
    rw [pyInt_of_nonneg le_rfl]
    exact Int.floor_zero

/-- C7 witness: the amended theorem instantiated at frequency 0,
duration -1, sample_rate 8, amplitude 1/2, with the degenerate-duration
implication discharged. -/
theorem C7_degenerate_inputs_witness :
    generate_sine_wave 0 (-1) 8 (1/2) = [] ∧
      encode_wav ([] : List ℤ) 8 = some (wavHeader 8 0) ∧
      (wavHeader 8 0).length = 44 ∧
      readU16le ((wavHeader 8 0).drop 22) = 1 ∧
      readU16le ((wavHeader 8 0).drop 34) = 16 ∧
      readU32le ((wavHeader 8 0).drop 24) = 8 ∧
      readU32le ((wavHeader 8 0).drop 40) = 0 ∧
      decode (wavHeader 8 0) = some [] := by
  have h := C7_degenerate_inputs 0 (-1) 8 (1/2) (by norm_num) (by norm_num)
  exact ⟨h.1 (by norm_num), h.2.1, h.2.2.1, h.2.2.2.1, h.2.2.2.2.1,
    h.2.2.2.2.2.1, h.2.2.2.2.2.2.1, h.2.2.2.2.2.2.2.1⟩

/-! ### C8: the concrete 440 Hz scenario -/

/-- C8 confirmed: `generate_sine_wave(440, 1.0, 44100, 0.5)` yields exactly
44100 samples; sample 0 is 0; sample 25 — the quarter-period peak, where the
angle is π/2 − π/882 and the sine is cos(π/882) ≈ 0.9999937 — quantizes to
exactly 16383 ≈ +16383 as claimed. -/
theorem C8_concrete_scenario :
    (generate_sine_wave 440 1 44100 (1/2)).length = 44100 ∧
      (generate_sine_wave 440 1 44100 (1/2)).getD 0 0 = 0 ∧
      (generate_sine_wave 440 1 44100 (1/2)).getD 25 0 = 16383 := by
  have hn : numSamples 44100 1 = 44100 := by
    rw [numSamples, pyInt_of_nonneg (by norm_num)]
    norm_num
    decide
  refine ⟨by rw [length_generate_sine_wave, hn], ?_, ?_⟩
  · rw [getD_generate_sine_wave 440 1 44100 (1/2) (by rw [hn]; norm_num), sampleAt]
    norm_num
    rw [pyInt_of_nonneg le_rfl]
    exact Int.floor_zero
  · have hangle : 2 * Real.pi * 440 * (((25:ℕ):ℝ) / ((44100:ℕ):ℝ)) =
        Real.pi / 2 - Real.pi / 882 := by
      push_cast
      ring
    rw [getD_generate_sine_wave 440 1 44100 (1/2) (by rw [hn]; norm_num), sampleAt,
      hangle, Real.sin_pi_div_two_sub]
    have hc1 : Real.cos (Real.pi / 882) ≤ 1 := Real.cos_le_one _
    have hc2 : 1 - (Real.pi / 882) ^ 2 / 2 ≤ Real.cos (Real.pi / 882) :=
      Real.one_sub_sq_div_two_le_cos
    have hpi : Real.pi < 3.15 := Real.pi_lt_d2
    have hpi0 : 0 < Real.pi := Real.pi_pos
    have hpi2 : Real.pi ^ 2 < 9.9225 := by nlinarith
    rw [pyInt_of_nonneg (by nlinarith), Int.floor_eq_iff]
    constructor
    · push_cast
      nlinarith
    · push_cast
      nlinarith

/-! ### C9: amplitude scaling -/

theorem pyInt_two_mul (x : ℝ) : |pyInt (2 * x) - 2 * pyInt x| ≤ 1 := by
  unfold pyInt
  rcases le_or_lt 0 x with hx | hx
  · rw [if_pos hx, if_pos (by linarith)]
    have hf1 : (⌊x⌋ : ℝ) ≤ x := Int.floor_le x
    have hf2 : x < ⌊x⌋ + 1 := Int.lt_floor_add_one x
    have h1 : (2 * ⌊x⌋ : ℤ) ≤ ⌊2 * x⌋ := by
      rw [Int.le_floor]
      push_cast
      linarith
    have h2 : ⌊2 * x⌋ < 2 * ⌊x⌋ + 2 := by
      rw [Int.floor_lt]
      push_cast
      linarith
    rw [abs_le]
    omega
  · rw [if_neg (not_le.mpr hx), if_neg (by push_neg; linarith)]
    have hc1 : x ≤ ⌈x⌉ := Int.le_ceil x
    have hc2 : (⌈x⌉ : ℝ) - 1 < x := by
      have := Int.ceil_lt_add_one x
      linarith
    have h1 : ⌈2 * x⌉ ≤ 2 * ⌈x⌉ := by
      rw [Int.ceil_le]
      push_cast
      linarith
    have h2 : 2 * ⌈x⌉ - 2 < ⌈2 * x⌉ := by
      rw [Int.lt_ceil]
      push_cast
      linarith
    rw [abs_le]
    omega

/-- C9 confirmed: doubling the amplitude (staying ≤ 1) doubles every sample
up to one quantization step: for every index, the sample synthesized with
amplitude 2a differs from twice the sample synthesized with amplitude a by
at most 1 (the quantization error of the truncation; no sample is clamped
since 2a ≤ 1 keeps everything in range). -/
theorem C9_amplitude_doubling (frequency duration : ℝ) (sample_rate : ℕ)
    {amplitude : ℝ} (ha0 : 0 < amplitude) (ha2 : 2 * amplitude ≤ 1) (i : ℕ) :
    |(generate_sine_wave frequency duration sample_rate (2 * amplitude)).getD i 0 -
      2 * (generate_sine_wave frequency duration sample_rate amplitude).getD i 0| ≤ 1 := by
  by_cases hi : i < numSamples sample_rate duration
  · rw [getD_generate_sine_wave frequency duration sample_rate (2 * amplitude) hi,
      getD_generate_sine_wave frequency duration sample_rate amplitude hi,
      sampleAt, sampleAt]
    have harg :
        2 * amplitude * Real.sin (2 * Real.pi * frequency * (i / sample_rate)) * 32767 =
        2 * (amplitude * Real.sin (2 * Real.pi * frequency * (i / sample_rate)) * 32767) := by
      ring
    rw [harg]
    exact pyInt_two_mul _
  · push_neg at hi
    rw [List.getD_eq_default _ _ (by rw [length_generate_sine_wave]; exact hi),
      List.getD_eq_default _ _ (by rw [length_generate_sine_wave]; exact hi)]
    norm_num

/-- C9 witness: the doubling bound instantiated at frequency 1, duration 1,
sample_rate 1, amplitude 1/2, index 0. -/
theorem C9_amplitude_doubling_witness :
    |(generate_sine_wave 1 1 1 (2 * (1/2))).getD 0 0 -
      2 * (generate_sine_wave 1 1 1 (1/2)).getD 0 0| ≤ 1 :=
  C9_amplitude_doubling 1 1 1 (by norm_num) (by norm_num) 0

/-! ### C10: symmetric sample range and packing safety -/

/-- C10 confirmed: for 0 < amplitude ≤ 1 every quantized sample lies in the
symmetric range [-32767, 32767] — the value -32768 is never produced, since
the truncation toward zero of a value of magnitude at most 32767 has
magnitude at most 32767 — and consequently `struct.pack('<h', ...)` succeeds
on every sample and the packing of the whole buffer succeeds. -/
theorem C10_symmetric_range (frequency duration : ℝ) (sample_rate : ℕ)
    {amplitude : ℝ} (ha0 : 0 < amplitude) (ha1 : amplitude ≤ 1) :
    (∀ s ∈ generate_sine_wave frequency duration sample_rate amplitude,
        -32767 ≤ s ∧ s ≤ 32767 ∧ pack_i16le s ≠ none) ∧
      packSamples (generate_sine_wave frequency duration sample_rate amplitude) ≠
        none := by
  have hmem : ∀ s ∈ generate_sine_wave frequency duration sample_rate amplitude,
      -32767 ≤ s ∧ s ≤ 32767 := by
    intro s hs
    rw [generate_sine_wave, List.mem_map] at hs
    obtain ⟨i, -, rfl⟩ := hs
    exact sampleAt_bound frequency sample_rate ha0 ha1 i
  refine ⟨fun s hs => ⟨(hmem s hs).1, (hmem s hs).2, ?_⟩, ?_⟩
  · rw [pack_i16le,
      if_pos ⟨by have := (hmem s hs).1; omega, (hmem s hs).2⟩]
    exact Option.some_ne_none _
  · obtain ⟨data, hdata⟩ := packSamples_isSome
      (fun s hs => ⟨by have := (hmem s hs).1; omega, (hmem s hs).2⟩)
    rw [hdata]
    exact Option.some_ne_none _

/-- C10 witness: the packing-safety theorem instantiated at frequency 1,
duration 1, sample_rate 4, amplitude 1 and the buffer element at index 1. -/
theorem C10_symmetric_range_witness :
    -32767 ≤ sampleAt 1 4 1 1 ∧ sampleAt 1 4 1 1 ≤ 32767 ∧
      pack_i16le (sampleAt 1 4 1 1) ≠ none := by
  refine (@C10_symmetric_range 1 1 4 1 (by norm_num) (by norm_num)).1
    (sampleAt 1 4 1 1) ?_
  rw [generate_sine_wave, List.mem_map]
  refine ⟨1, ?_, rfl⟩
  rw [List.mem_range, numSamples, pyInt_of_nonneg (by norm_num)]
  norm_num
